import Mathlib

/-!
# CLI styling options (gdb/cli/cli-style.c) and the simulator base state (sim/common/sim-base.h)

A shallow embedding of `cli_style_option` and of the parts of the simulator
engine that `sim_state_base` and `sim_cpu_base` hold, with the properties
proved about them.
-/

namespace CliStyle

/-- A `const char *`: the string pointed to, `none` for `nullptr`.  The source
compares these pointers with `==` against entries of `cli_colors` and
`cli_intensities` only; the literals of each table are pairwise distinct, so
comparing what is pointed to decides the comparison the same way. -/
abbrev cstr := Option String

/-- Name of colors; must correspond to `ui_file_style::basic_color`. -/
def cli_colors : List cstr :=
  [some "none", some "black", some "red", some "green", some "yellow",
   some "blue", some "magenta", some "cyan", some "white", none]

/-- Names of intensities; must correspond to `ui_file_style::intensity`. -/
def cli_intensities : List cstr :=
  [some "normal", some "bold", some "dim", none]

/-- Modelled from the spec: the enumeration `ui_file_style::basic_color`, declared in
ui-style.h (not among the sources): NONE = -1, BLACK = 0, ..., WHITE = 7. -/
inductive basic_color where
  | NONE | BLACK | RED | GREEN | YELLOW | BLUE | MAGENTA | CYAN | WHITE
  deriving DecidableEq, Repr

/-- The integer value of a `basic_color` enumerator. -/
def basic_color.toInt : basic_color → Int
  | .NONE => -1
  | .BLACK => 0
  | .RED => 1
  | .GREEN => 2
  | .YELLOW => 3
  | .BLUE => 4
  | .MAGENTA => 5
  | .CYAN => 6
  | .WHITE => 7

/-- Modelled from the spec: the enumeration `ui_file_style::intensity`, declared in
ui-style.h (not among the sources): NORMAL = 0, BOLD = 1, DIM = 2. -/
inductive intensity where
  | NORMAL | BOLD | DIM
  deriving DecidableEq, Repr

/-- The integer value of an `intensity` enumerator. -/
def intensity.toInt : intensity → Int
  | .NORMAL => 0
  | .BOLD => 1
  | .DIM => 2

/-- Modelled from the spec: the value type `ui_file_style` of ui-style.h (not among the
sources), as the three components `style ()` passes to its constructor: the
foreground and background colour numbers and the intensity value. -/
structure ui_file_style where
  m_foreground : Int
  m_background : Int
  m_intensity : Int
  deriving DecidableEq, Repr

/-- The data members of `cli_style_option` that `style ()` and `name ()` read. -/
structure cli_style_option where
  m_name : String
  m_foreground : cstr
  m_background : cstr
  m_intensity : cstr
  deriving DecidableEq, Repr

/-- The array access `tbl[i]` of a C array; `none` when `i` is not an index of the array. -/
def at_index (tbl : List cstr) (i : Int) : Option cstr :=
  if 0 ≤ i then tbl[i.toNat]? else none

/-- The constructor `cli_style_option (const char *name, ui_file_style::basic_color fg)`. -/
def cli_style_option.of_color (name : String) (fg : basic_color) : Option cli_style_option := do
  let f ← at_index cli_colors (fg.toInt - basic_color.NONE.toInt)
  let b ← at_index cli_colors 0
  let i ← at_index cli_intensities intensity.NORMAL.toInt
  pure ⟨name, f, b, i⟩

/-- The constructor `cli_style_option (const char *name, ui_file_style::intensity i)`. -/
def cli_style_option.of_intensity (name : String) (i : intensity) : Option cli_style_option := do
  let f ← at_index cli_colors 0
  let b ← at_index cli_colors 0
  let k ← at_index cli_intensities i.toInt
  pure ⟨name, f, b, k⟩

/-- The loop of `color_number` from index `i` on, over the entries of the table from
`i` on: the first entry equal to `color` returns its index minus one; running off
the table reaches `gdb_assert_not_reached`, here `none`. -/
def color_number.loop (color : cstr) : List cstr → Int → Option Int
  | [], _ => none
  | e :: rest, i => if color = e then some (i - 1) else color_number.loop color rest (i + 1)

/-- Return the color number corresponding to `color`. -/
def color_number (color : cstr) : Option Int :=
  color_number.loop color cli_colors 0

/-- The loop of `style ()` over `cli_intensities` from index `i` on: the first entry
equal to `m` gives the intensity `i` and leaves the loop; when no entry is equal the
intensity keeps its initial value `ui_file_style::NORMAL`. -/
def style.loop (m : cstr) : List cstr → Int → Int
  | [], _ => intensity.NORMAL.toInt
  | e :: rest, i => if m = e then i else style.loop m rest (i + 1)

/-- The member function `cli_style_option::style ()`. -/
def cli_style_option.style (o : cli_style_option) : Option ui_file_style := do
  let fg ← color_number o.m_foreground
  let bg ← color_number o.m_background
  pure ⟨fg, bg, style.loop o.m_intensity cli_intensities 0⟩

/-- The data member a set/show command is bound to: its `var` argument, one of
`&m_foreground`, `&m_background`, `&m_intensity`. -/
inductive member where
  | m_foreground | m_background | m_intensity
  deriving DecidableEq, Repr

/-- One call of `add_setshow_enum_cmd`: the name of the command, its `enumlist` and
the data member its `var` points to. -/
structure enum_cmd where
  name : String
  enumlist : List cstr
  var : member
  deriving DecidableEq, Repr

/-- The member function `cli_style_option::add_setshow_commands`: the enum commands it
adds to `m_set_list` and `m_show_list`, in order. -/
def cli_style_option.add_setshow_commands : List enum_cmd :=
  [⟨"foreground", cli_colors, .m_foreground⟩,
   ⟨"background", cli_colors, .m_background⟩,
   ⟨"intensity", cli_intensities, .m_intensity⟩]

/-- The store `*var = value` through the `var` of a command. -/
def cli_style_option.assign (o : cli_style_option) : member → cstr → cli_style_option
  | .m_foreground, v => { o with m_foreground := v }
  | .m_background, v => { o with m_background := v }
  | .m_intensity, v => { o with m_intensity := v }

/-- Modelled from the spec: the effect of `set style NAME CMD VALUE` on the option; the
bodies of `add_setshow_enum_cmd` and of the set command are not among the sources.
Each setting is settable to the names of its `enumlist`: the command stores the entry
of that name in the data member it is bound to, and fails on any other value. -/
def cli_style_option.set (o : cli_style_option) (cmd value : String) :
    Option cli_style_option :=
  match cli_style_option.add_setshow_commands.find? (fun c => c.name == cmd) with
  | some c => if some value ∈ c.enumlist then some (o.assign c.var (some value)) else none
  | none => none

/-- The member function `cli_style_option::name ()`. -/
def cli_style_option.name (o : cli_style_option) : String := o.m_name

/-- The global `file_name_style`. -/
def file_name_style : Option cli_style_option := cli_style_option.of_color "filename" .GREEN

/-- The global `function_name_style`. -/
def function_name_style : Option cli_style_option := cli_style_option.of_color "function" .YELLOW

/-- The global `variable_name_style`. -/
def variable_name_style : Option cli_style_option := cli_style_option.of_color "variable" .CYAN

/-- The global `address_style`. -/
def address_style : Option cli_style_option := cli_style_option.of_color "address" .BLUE

/-- The global `highlight_style`. -/
def highlight_style : Option cli_style_option := cli_style_option.of_color "highlight" .RED

/-- The global `title_style`. -/
def title_style : Option cli_style_option := cli_style_option.of_intensity "title" .BOLD

/-- The global `metadata_style`. -/
def metadata_style : Option cli_style_option := cli_style_option.of_intensity "metadata" .DIM

/-- The seven predefined style options, in the order of their definitions. -/
def predefined_styles : List (Option cli_style_option) :=
  [file_name_style, function_name_style, variable_name_style, address_style,
   highlight_style, title_style, metadata_style]

end CliStyle

namespace SimEvents

/-- Modelled from the spec: an operation a callback performs on the scheduler while it
runs (sim-events.h is not among the sources): it may schedule new events and cancel
pending ones.  `κ` names the callbacks of the host. -/
inductive request (κ : Type) where
  | schedule (trigger_time : Int) (callback : κ)
  | cancel (handle : Nat)

/-- Modelled from the spec: what the callbacks of the host do when invoked (their code is
supplied by the host, not by the engine): the callback named `k`, invoked on the host
state `s`, leaves the host state `(body k s).1` and performs the scheduler operations
`(body k s).2`, in order. -/
abbrev callbacks (σ κ : Type) := κ → σ → σ × List (request κ)

/-- Modelled from the spec: an Event of the event scheduler (sim-events.h is not among the
sources): its trigger time, its callback, and the insertion sequence number it
was given when scheduled, which is also its cancellation handle. -/
structure sim_event (κ : Type) where
  time : Int
  seq : Nat
  callback : κ

/-- Modelled from the spec: the event queue `sim_events` held in `sim_state_base` (its
declaration in sim-events.h is not among the sources): the pending events, kept
ordered by `(trigger_time, insertion_sequence)`, and the next insertion sequence
number. -/
structure sim_events (κ : Type) where
  queue : List (sim_event κ)
  next_seq : Nat

/-- The order of the priority structure: `(trigger_time, insertion_sequence)`,
lexicographically. -/
def before {κ : Type} (a b : sim_event κ) : Prop :=
  a.time < b.time ∨ (a.time = b.time ∧ a.seq < b.seq)

instance {κ : Type} (a b : sim_event κ) : Decidable (before a b) := by
  unfold before; infer_instance

/-- Modelled from the spec: the scheduler of a newly created simulation state: no pending
event. -/
def sim_events.empty {κ : Type} : sim_events κ := ⟨[], 0⟩

/-- Insert `e` into an ordered queue: behind every event that is before it in the order
of the priority structure. -/
def insert_event {κ : Type} (e : sim_event κ) : List (sim_event κ) → List (sim_event κ)
  | [] => [e]
  | x :: xs => if before x e then x :: insert_event e xs else e :: x :: xs

/-- Modelled from the spec: `schedule(trigger_time, callback) -> Handle` inserts an event
into the priority structure ordered by `(trigger_time, insertion_sequence)`. -/
def schedule {κ : Type} (ev : sim_events κ) (trigger_time : Int) (callback : κ) :
    sim_events κ × Nat :=
  (⟨insert_event ⟨trigger_time, ev.next_seq, callback⟩ ev.queue, ev.next_seq + 1⟩, ev.next_seq)

/-- Modelled from the spec: `cancel(handle)` removes a not-yet-fired event, no-op if
already fired. -/
def cancel {κ : Type} (ev : sim_events κ) (handle : Nat) : sim_events κ :=
  ⟨ev.queue.filter (fun e => e.seq != handle), ev.next_seq⟩

/-- The scheduler after the operations a callback performs, in order. -/
def perform {κ : Type} (ev : sim_events κ) : List (request κ) → sim_events κ
  | [] => ev
  | .schedule t cb :: rs => perform (schedule ev t cb).1 rs
  | .cancel h :: rs => perform (cancel ev h) rs

/-- What a run of `advance_to` leaves: the scheduler, the host state, the events fired,
in firing order, each with the operations its callback performed, and whether the
run came to its end: no pending event is due any more. -/
structure outcome (σ κ : Type) where
  events : sim_events κ
  state : σ
  log : List (sim_event κ × List (request κ))
  finished : Bool

/-- The events fired, in firing order. -/
def outcome.fired {σ κ : Type} (o : outcome σ κ) : List (sim_event κ) := o.log.map Prod.fst

/-- The loop of `advance_to` over the priority structure: while the first event of the
queue has a trigger time `≤ time`, it is removed from the queue, then its callback is
invoked, and the operations of the callback are performed on the queue without the
event.  The loop is cut after `fuel` events. -/
def fire_due {σ κ : Type} (body : callbacks σ κ) (time : Int) :
    Nat → sim_events κ → σ → outcome σ κ
  | 0, ev, s =>
    ⟨ev, s, [],
      match ev.queue with
      | [] => true
      | e :: _ => decide (time < e.time)⟩
  | fuel + 1, ev, s =>
    match ev.queue with
    | [] => ⟨ev, s, [], true⟩
    | e :: rest =>
      if e.time ≤ time then
        let r := body e.callback s
        let o := fire_due body time fuel (perform ⟨rest, ev.next_seq⟩ r.2) r.1
        ⟨o.events, o.state, (e, r.2) :: o.log, o.finished⟩
      else ⟨ev, s, [], true⟩

/-- Modelled from the spec: `advance_to(time)` fires, in order, every event whose trigger
time is `≤ time`, removing it from the queue before invoking its callback, so that a
callback may itself schedule new events.  A callback can schedule events that are
due in turn without end, so the number of events fired is bounded by `fuel`. -/
def advance_to {σ κ : Type} (body : callbacks σ κ) (ev : sim_events κ) (time : Int) (s : σ)
    (fuel : Nat) : outcome σ κ :=
  fire_due body time fuel ev s

/-- The events of a list with the operations their callbacks perform when they are
invoked in the order of the list, from the host state `s`. -/
def trace {σ κ : Type} (body : callbacks σ κ) :
    List (sim_event κ) → σ → List (sim_event κ × List (request κ))
  | [], _ => []
  | e :: es, s => (e, (body e.callback s).2) :: trace body es (body e.callback s).1

/-- One call of the scheduler by the host. -/
inductive call (κ : Type) where
  | schedule (trigger_time : Int) (callback : κ)
  | cancel (handle : Nat)
  | advance_to (time : Int) (fuel : Nat)

/-- The scheduler, the host state and all events fired so far, in firing order. -/
structure history (σ κ : Type) where
  events : sim_events κ
  state : σ
  fired : List (sim_event κ)

/-- The effect of one call of the host. -/
def step {σ κ : Type} (body : callbacks σ κ) (h : history σ κ) : call κ → history σ κ
  | .schedule t cb => ⟨(schedule h.events t cb).1, h.state, h.fired⟩
  | .cancel n => ⟨cancel h.events n, h.state, h.fired⟩
  | .advance_to t fuel =>
    let o := advance_to body h.events t h.state fuel
    ⟨o.events, o.state, h.fired ++ o.fired⟩

/-- The history after a sequence of calls on a new scheduler. -/
def run {σ κ : Type} (body : callbacks σ κ) (calls : List (call κ)) (s : σ) : history σ κ :=
  calls.foldl (step body) ⟨sim_events.empty, s, []⟩

/-- The queue is ordered by `(trigger_time, insertion_sequence)` and every pending event
has a sequence number below the next one. -/
def ordered {κ : Type} (ev : sim_events κ) : Prop :=
  ev.queue.Pairwise before ∧ ∀ x ∈ ev.queue, x.seq < ev.next_seq

/-- The callbacks of the scenario: callback `id` appends `id` to the log and performs no
operation on the scheduler. -/
def log_id : callbacks (List Nat) Nat := fun id log => (log ++ [id], [])

/-- Callbacks that schedule: callback `0` appends 0 to the log and schedules callback `1`
at time 3; any other callback `id` appends `id` to the log. -/
def log_and_schedule : callbacks (List Nat) Nat := fun id log =>
  (log ++ [id], if id = 0 then [.schedule 3 1] else [])

end SimEvents

namespace SimModule

/-- The result of a module callback: whether it succeeded, and the host state it leaves. -/
abbrev callback (σ : Type) := σ → Bool × σ

/-- Modelled from the spec: a Module (sim-module.h is not among the sources): a unique
name, an initialization callback, an optional uninstall callback. -/
structure module (σ : Type) where
  name : String
  init_fn : callback σ
  uninstall_fn : Option (callback σ)

/-- Modelled from the spec: the module registry, the two ordered lists `init_list` and
`uninstall_list` of `sim_state_base` (their element types, in sim-module.h, are not
among the sources); each entry is a handler with the name of its module. -/
structure registry (σ : Type) where
  init_list : List (String × callback σ)
  uninstall_list : List (String × callback σ)

/-- Errors of the registry. -/
inductive error where
  | DuplicateModuleError (name : String)
  deriving DecidableEq, Repr

/-- Modelled from the spec: the registry of a newly created simulation state is empty. -/
def registry.empty {σ : Type} : registry σ := ⟨[], []⟩

/-- Modelled from the spec: `register(name, init_fn, uninstall_fn?)` appends to the
ordered list; fails with `DuplicateModuleError` if `name` is already registered. -/
def register {σ : Type} (r : registry σ) (m : module σ) : Except error (registry σ) :=
  if r.init_list.any (fun e => e.1 == m.name) then .error (.DuplicateModuleError m.name)
  else .ok ⟨r.init_list ++ [(m.name, m.init_fn)],
            match m.uninstall_fn with
            | some f => r.uninstall_list ++ [(m.name, f)]
            | none => r.uninstall_list⟩

/-- Register the modules of a list, in order, stopping at the first failure. -/
def register_all {σ : Type} (r : registry σ) : List (module σ) → Except error (registry σ)
  | [] => .ok r
  | m :: ms =>
    match register r m with
    | .ok r1 => register_all r1 ms
    | .error e => .error e

/-- What a run of callbacks reports: the names of the modules whose callback was invoked,
in invocation order, the names of the modules whose callback failed, and the host
state at the end. -/
structure report (σ : Type) where
  invoked : List String
  failed : List String
  state : σ

/-- The loop of `run_init_all` over the handlers in list order: when a callback fails
initialization stops, and that module is reported. -/
def init_loop {σ : Type} : List (String × callback σ) → σ → report σ
  | [], s => ⟨[], [], s⟩
  | (n, f) :: rest, s =>
    let r := f s
    if r.1 then
      let t := init_loop rest r.2
      ⟨n :: t.invoked, t.failed, t.state⟩
    else ⟨[n], [n], r.2⟩

/-- Modelled from the spec: `run_init_all()` invokes every init callback in registration
order; if any init callback fails, initialization stops and the engine reports which
module failed. -/
def run_init_all {σ : Type} (r : registry σ) (s : σ) : report σ :=
  init_loop r.init_list s

/-- The loop of `run_uninstall_all` over the handlers in the order given: it continues
past individual failures. -/
def uninstall_loop {σ : Type} : List (String × callback σ) → σ → report σ
  | [], s => ⟨[], [], s⟩
  | (n, f) :: rest, s =>
    let r := f s
    let t := uninstall_loop rest r.2
    ⟨n :: t.invoked, if r.1 then t.failed else n :: t.failed, t.state⟩

/-- Modelled from the spec: `run_uninstall_all()` invokes uninstall callbacks in reverse
registration order, continuing past individual failures. -/
def run_uninstall_all {σ : Type} (r : registry σ) (s : σ) : report σ :=
  uninstall_loop r.uninstall_list.reverse s

/-- A module of the scenario: both callbacks succeed and append a line to a log. -/
def logging_module (name : String) : module (List String) :=
  ⟨name, fun log => (true, log ++ ["init " ++ name]),
    some (fun log => (true, log ++ ["uninstall " ++ name]))⟩

/-- The modules of the scenario: A, B, C, in registration order. -/
def scenario_modules : List (module (List String)) :=
  [logging_module "A", logging_module "B", logging_module "C"]

/-- The life of a registry: register the modules in order, run `run_init_all`, then
`run_uninstall_all` on the state it leaves.  Gives the names of the modules whose init
callback was invoked, of those whose uninstall callback was invoked, and the final
host state. -/
def lifecycle {σ : Type} (ms : List (module σ)) (s : σ) :
    Except error (List String × List String × σ) :=
  match register_all registry.empty ms with
  | .ok r =>
    let i := run_init_all r s
    let u := run_uninstall_all r i.state
    .ok (i.invoked, u.invoked, u.state)
  | .error e => .error e

end SimModule

namespace SimCore

/-- One byte of simulated memory. -/
abbrev byte := Fin 256

/-- Access permissions of a region. -/
structure permissions where
  read : Bool
  write : Bool
  deriving DecidableEq, Repr

/-- Modelled from the spec: an Address Space Region of the core memory bus (sim-core.h is
not among the sources): base address, length, access permissions, and its backing
storage, flat buffer or device callback alike, as the byte it holds at each offset
from the base. -/
structure region where
  base : Nat
  length : Nat
  perm : permissions
  backing : Nat → byte

/-- Modelled from the spec: the core memory bus `sim_core` held in `sim_state_base` (its
declaration in sim-core.h is not among the sources): the registered regions, in
registration order. -/
structure sim_core where
  regions : List region

/-- Errors of the memory bus. -/
inductive error where
  | OverlapError
  | UnmappedAccessError
  | PermissionError
  | MisalignedSpanError
  deriving DecidableEq, Repr

/-- Two address ranges `[b1, b1 + n1)` and `[b2, b2 + n2)` have a byte in common. -/
def ranges_intersect (b1 n1 b2 n2 : Nat) : Bool :=
  decide (max b1 b2 < min (b1 + n1) (b2 + n2))

/-- Two regions intersect at some byte. -/
def intersects (a b : region) : Bool :=
  ranges_intersect a.base a.length b.base b.length

/-- Modelled from the spec: the memory bus of a newly created simulation state: no region. -/
def sim_core.empty : sim_core := ⟨[]⟩

/-- Modelled from the spec: `map(address, length, permissions, backing)` registers a
region; fails with `OverlapError` if it intersects an existing region. -/
def map (c : sim_core) (address length : Nat) (perm : permissions) (backing : Nat → byte) :
    Except error sim_core :=
  if c.regions.any (fun r => intersects r ⟨address, length, perm, backing⟩) then
    .error .OverlapError
  else .ok ⟨c.regions ++ [⟨address, length, perm, backing⟩]⟩

/-- The address resolves into the region and the region covers the full requested range. -/
def covers (r : region) (address length : Nat) : Bool :=
  decide (r.base ≤ address ∧ address < r.base + r.length ∧
    address + length ≤ r.base + r.length)

/-- The error of an access that no region covers: one spanning two or more regions fails
with `MisalignedSpanError`, any other with `UnmappedAccessError`. -/
def uncovered (c : sim_core) (address length : Nat) : error :=
  if 2 ≤ (c.regions.filter (fun r => ranges_intersect r.base r.length address length)).length
  then .MisalignedSpanError else .UnmappedAccessError

/-- The bytes of a region at `address`, `length` of them. -/
def load (r : region) (address length : Nat) : List byte :=
  (List.range length).map (fun k => r.backing (address - r.base + k))

/-- The region with `bytes` stored at `address`. -/
def store (r : region) (address : Nat) (bytes : List byte) : region :=
  ⟨r.base, r.length, r.perm,
    fun i => if address - r.base ≤ i ∧ i < address - r.base + bytes.length
      then bytes.getD (i - (address - r.base)) 0 else r.backing i⟩

/-- Replace the region the access resolves to, the first one covering it, by the
region with `bytes` stored. -/
def store_in (address : Nat) (bytes : List byte) : List region → List region
  | [] => []
  | r :: rest =>
    if covers r address bytes.length then store r address bytes :: rest
    else r :: store_in address bytes rest

/-- Modelled from the spec: `read(address, length)` resolves the address to a region and
performs the access; fails with `UnmappedAccessError` if no region covers the full
requested range, with `PermissionError` if the access violates the region
permissions, and with `MisalignedSpanError` if it spans two or more regions. -/
def read (c : sim_core) (address length : Nat) : Except error (List byte) :=
  match c.regions.find? (fun r => covers r address length) with
  | some r => if r.perm.read then .ok (load r address length) else .error .PermissionError
  | none => .error (uncovered c address length)

/-- Modelled from the spec: `write(address, length, bytes)` resolves the address to a
region and performs the access, with the same failures as `read`; the buffer of
`length` bytes is the list `bytes`. -/
def write (c : sim_core) (address : Nat) (bytes : List byte) : Except error sim_core :=
  match c.regions.find? (fun r => covers r address bytes.length) with
  | some r =>
    if r.perm.write then .ok ⟨store_in address bytes c.regions⟩
    else .error .PermissionError
  | none => .error (uncovered c address bytes.length)

/-- One request to register a region. -/
structure map_request where
  address : Nat
  length : Nat
  perm : permissions
  backing : Nat → byte

/-- The bus after one `map` request; a request that fails leaves the bus as it was. -/
def map_step (c : sim_core) (q : map_request) : sim_core :=
  match map c q.address q.length q.perm q.backing with
  | .ok c1 => c1
  | .error _ => c

/-- The bus after a sequence of `map` requests on a new bus. -/
def map_all (qs : List map_request) : sim_core :=
  qs.foldl map_step sim_core.empty

/-- The region of the scenario: `[0x1000, 0x1000 + 256)`, read-write, zero-filled. -/
def scenario_request : map_request := ⟨0x1000, 256, ⟨true, true⟩, fun _ => 0⟩

/-- The four bytes of the value `0xDEADBEEF`. -/
def deadbeef : List byte := [0xDE, 0xAD, 0xBE, 0xEF]

end SimCore

namespace SimBase

/-- The default of the preprocessor constant `MAX_DEBUG_VALUES`. -/
def MAX_DEBUG_VALUES : Nat := 4

/-- The preprocessor constant `DEBUG_INSN_IDX`. -/
def DEBUG_INSN_IDX : Nat := 0

/-- The preprocessor constant `DEBUG_NEXT_IDX`: simulator specific debug bits begin here. -/
def DEBUG_NEXT_IDX : Nat := 2

/-- The preprocessor constant `SIM_MAGIC_NUMBER`. -/
def SIM_MAGIC_NUMBER : Int := 0x4242

/-- The members of `sim_cpu_base` whose types are declared in sim-base.h: the array
`char debug_flags[MAX_DEBUG_VALUES]`, a list of that many `char` values. -/
structure sim_cpu_base where
  debug_flags : List Int
  debug_flags_size : debug_flags.length = MAX_DEBUG_VALUES

/-- The accessor `CPU_DEBUG_FLAGS`. -/
def CPU_DEBUG_FLAGS (cpu : sim_cpu_base) : List Int := cpu.debug_flags

/-- The members of `sim_state_base` that hold the module lists, the core memory bus,
the event handler and the magic number. -/
structure sim_state_base (σ κ : Type) where
  modules : SimModule.registry σ
  core : SimCore.sim_core
  events : SimEvents.sim_events κ
  magic : Int

/-- The accessor `STATE_INIT_LIST`. -/
def STATE_INIT_LIST {σ κ : Type} (sd : sim_state_base σ κ) := sd.modules.init_list

/-- The accessor `STATE_UNINSTALL_LIST`. -/
def STATE_UNINSTALL_LIST {σ κ : Type} (sd : sim_state_base σ κ) := sd.modules.uninstall_list

/-- The accessor `STATE_CORE`. -/
def STATE_CORE {σ κ : Type} (sd : sim_state_base σ κ) : SimCore.sim_core := sd.core

/-- The accessor `STATE_EVENTS`. -/
def STATE_EVENTS {σ κ : Type} (sd : sim_state_base σ κ) : SimEvents.sim_events κ := sd.events

/-- The accessor `STATE_MAGIC`. -/
def STATE_MAGIC {σ κ : Type} (sd : sim_state_base σ κ) : Int := sd.magic

end SimBase

/-! ## CLI styling options -/

namespace CliStyle

theorem color_number_of_mem (c : cstr) (h : c ∈ cli_colors) : ∃ n, color_number c = some n := by
  have key : ∀ c ∈ cli_colors, (color_number c).isSome = true := by decide
  exact Option.isSome_iff_exists.mp (key c h)

/-- C1: for every option on which `style ()` returns, setting only the foreground to a
named colour `c` of the colour table succeeds and gives an option on which `style ()`
returns the colour number of `c` as foreground and the background and intensity it
returned before; the same for setting only the background (foreground and intensity
as before) and for setting only the intensity to a name of the intensity table
(foreground and background as before). -/
theorem style_components_independent (o : cli_style_option) (s : ui_file_style)
    (h : o.style = some s) :
    (∀ c, some c ∈ cli_colors → ∃ o1 s1, o.set "foreground" c = some o1 ∧
        o1.style = some s1 ∧ color_number (some c) = some s1.m_foreground ∧
        s1.m_background = s.m_background ∧ s1.m_intensity = s.m_intensity) ∧
    (∀ c, some c ∈ cli_colors → ∃ o1 s1, o.set "background" c = some o1 ∧
        o1.style = some s1 ∧ color_number (some c) = some s1.m_background ∧
        s1.m_foreground = s.m_foreground ∧ s1.m_intensity = s.m_intensity) ∧
    (∀ i, some i ∈ cli_intensities → ∃ o1 s1, o.set "intensity" i = some o1 ∧
        o1.style = some s1 ∧ s1.m_intensity = style.loop (some i) cli_intensities 0 ∧
        s1.m_foreground = s.m_foreground ∧ s1.m_background = s.m_background) := by
  obtain ⟨nm, f, b, k⟩ := o
  have hfg : cli_style_option.add_setshow_commands.find? (fun c => c.name == "foreground")
      = some ⟨"foreground", cli_colors, .m_foreground⟩ := by decide
  have hbg : cli_style_option.add_setshow_commands.find? (fun c => c.name == "background")
      = some ⟨"background", cli_colors, .m_background⟩ := by decide
  have hin : cli_style_option.add_setshow_commands.find? (fun c => c.name == "intensity")
      = some ⟨"intensity", cli_intensities, .m_intensity⟩ := by decide
  cases hf : color_number f with
  | none => simp [cli_style_option.style, hf] at h
  | some nf =>
    cases hb : color_number b with
    | none => simp [cli_style_option.style, hf, hb] at h
    | some nb =>
      simp only [cli_style_option.style, hf, hb, Option.bind_eq_bind, Option.some_bind,
        Option.pure_def, Option.some.injEq] at h
      subst h
      refine ⟨?_, ?_, ?_⟩
      · intro c hc
        obtain ⟨n, hn⟩ := color_number_of_mem (some c) hc
        refine ⟨⟨nm, some c, b, k⟩, ⟨n, nb, style.loop k cli_intensities 0⟩, ?_, ?_,
          hn, rfl, rfl⟩
        · simp only [cli_style_option.set, hfg, hc, if_true, cli_style_option.assign]
        · simp [cli_style_option.style, hn, hb]
      · intro c hc
        obtain ⟨n, hn⟩ := color_number_of_mem (some c) hc
        refine ⟨⟨nm, f, some c, k⟩, ⟨nf, n, style.loop k cli_intensities 0⟩, ?_, ?_,
          hn, rfl, rfl⟩
        · simp only [cli_style_option.set, hbg, hc, if_true, cli_style_option.assign]
        · simp [cli_style_option.style, hn, hf]
      · intro i hi
        refine ⟨⟨nm, f, b, some i⟩, ⟨nf, nb, style.loop (some i) cli_intensities 0⟩, ?_, ?_,
          rfl, rfl, rfl⟩
        · simp only [cli_style_option.set, hin, hi, if_true, cli_style_option.assign]
        · simp [cli_style_option.style, hf, hb]

/-- The frame property at the default "filename" option. -/
theorem style_components_independent_witness :
    cli_style_option.style ⟨"filename", some "green", some "none", some "normal"⟩
        = some ⟨2, -1, 0⟩ ∧
    ((∀ c, some c ∈ cli_colors → ∃ o1 s1,
        cli_style_option.set ⟨"filename", some "green", some "none", some "normal"⟩
          "foreground" c = some o1 ∧
        o1.style = some s1 ∧ color_number (some c) = some s1.m_foreground ∧
        s1.m_background = (⟨2, -1, 0⟩ : ui_file_style).m_background ∧
        s1.m_intensity = (⟨2, -1, 0⟩ : ui_file_style).m_intensity) ∧
    (∀ c, some c ∈ cli_colors → ∃ o1 s1,
        cli_style_option.set ⟨"filename", some "green", some "none", some "normal"⟩
          "background" c = some o1 ∧
        o1.style = some s1 ∧ color_number (some c) = some s1.m_background ∧
        s1.m_foreground = (⟨2, -1, 0⟩ : ui_file_style).m_foreground ∧
        s1.m_intensity = (⟨2, -1, 0⟩ : ui_file_style).m_intensity) ∧
    (∀ i, some i ∈ cli_intensities → ∃ o1 s1,
        cli_style_option.set ⟨"filename", some "green", some "none", some "normal"⟩
          "intensity" i = some o1 ∧
        o1.style = some s1 ∧ s1.m_intensity = style.loop (some i) cli_intensities 0 ∧
        s1.m_foreground = (⟨2, -1, 0⟩ : ui_file_style).m_foreground ∧
        s1.m_background = (⟨2, -1, 0⟩ : ui_file_style).m_background)) :=
  ⟨by decide, style_components_independent _ _ (by decide)⟩

/-- C2: for every basic colour `fg`, the option constructed with `(name, fg)` exists, has
the name `name`, and `style ()` returns on it `ui_file_style (fg, NONE, NORMAL)`: the
colour number of its foreground is `fg`. -/
theorem style_of_color (name : String) (fg : basic_color) :
    ∃ o, cli_style_option.of_color name fg = some o ∧ o.name = name ∧
      color_number o.m_foreground = some fg.toInt ∧
      o.style = some ⟨fg.toInt, basic_color.NONE.toInt, intensity.NORMAL.toInt⟩ := by
  cases fg <;> exact ⟨_, rfl, rfl, rfl, rfl⟩

/-- C3: for every intensity `i`, the option constructed with `(name, i)` exists, has the
name `name`, and `style ()` returns on it `ui_file_style (NONE, NONE, i)`. -/
theorem style_of_intensity (name : String) (i : intensity) :
    ∃ o, cli_style_option.of_intensity name i = some o ∧ o.name = name ∧
      style.loop o.m_intensity cli_intensities 0 = i.toInt ∧
      o.style = some ⟨basic_color.NONE.toInt, basic_color.NONE.toInt, i.toInt⟩ := by
  cases i <;> exact ⟨_, rfl, rfl, rfl, rfl⟩

/-- C4: the default styles of the seven predefined options: "filename" GREEN, "function"
YELLOW, "variable" CYAN, "address" BLUE, "highlight" RED as foreground with
background NONE and intensity NORMAL; "title" BOLD and "metadata" DIM with both
colours NONE; and their names are pairwise distinct. -/
theorem predefined_styles_defaults :
    file_name_style.bind cli_style_option.style
      = some ⟨basic_color.GREEN.toInt, basic_color.NONE.toInt, intensity.NORMAL.toInt⟩ ∧
    function_name_style.bind cli_style_option.style
      = some ⟨basic_color.YELLOW.toInt, basic_color.NONE.toInt, intensity.NORMAL.toInt⟩ ∧
    variable_name_style.bind cli_style_option.style
      = some ⟨basic_color.CYAN.toInt, basic_color.NONE.toInt, intensity.NORMAL.toInt⟩ ∧
    address_style.bind cli_style_option.style
      = some ⟨basic_color.BLUE.toInt, basic_color.NONE.toInt, intensity.NORMAL.toInt⟩ ∧
    highlight_style.bind cli_style_option.style
      = some ⟨basic_color.RED.toInt, basic_color.NONE.toInt, intensity.NORMAL.toInt⟩ ∧
    title_style.bind cli_style_option.style
      = some ⟨basic_color.NONE.toInt, basic_color.NONE.toInt, intensity.BOLD.toInt⟩ ∧
    metadata_style.bind cli_style_option.style
      = some ⟨basic_color.NONE.toInt, basic_color.NONE.toInt, intensity.DIM.toInt⟩ ∧
    predefined_styles.map (Option.map cli_style_option.name)
      = [some "filename", some "function", some "variable", some "address",
         some "highlight", some "title", some "metadata"] ∧
    (predefined_styles.map (Option.map cli_style_option.name)).Nodup := by
  refine ⟨by decide, by decide, by decide, by decide, by decide, by decide, by decide,
    by decide, by decide⟩

end CliStyle

/-! ## Event scheduler -/

namespace SimEvents

theorem mem_insert_event {κ : Type} (e x : sim_event κ) (q : List (sim_event κ)) :
    x ∈ insert_event e q ↔ x = e ∨ x ∈ q := by
  induction q with
  | nil => simp [insert_event]
  | cons y ys ih =>
    unfold insert_event
    split
    · simp only [List.mem_cons, ih]; tauto
    · simp only [List.mem_cons]

theorem perm_insert_event {κ : Type} (e : sim_event κ) (q : List (sim_event κ)) :
    (insert_event e q).Perm (e :: q) := by
  induction q with
  | nil => simp [insert_event]
  | cons y ys ih =>
    unfold insert_event
    split
    · exact (List.Perm.cons y ih).trans (List.Perm.swap e y ys)
    · exact List.Perm.refl _

theorem pairwise_insert_event {κ : Type} (e : sim_event κ) (q : List (sim_event κ))
    (hq : q.Pairwise before) (hfresh : ∀ x ∈ q, x.seq < e.seq) :
    (insert_event e q).Pairwise before := by
  induction q with
  | nil => simp [insert_event]
  | cons y ys ih =>
    rw [List.pairwise_cons] at hq
    have hy : y.seq < e.seq := hfresh y (List.mem_cons_self _ _)
    have hys : ∀ x ∈ ys, x.seq < e.seq := fun x hx => hfresh x (List.mem_cons_of_mem _ hx)
    unfold insert_event
    split
    · rename_i hlt
      rw [List.pairwise_cons]
      refine ⟨?_, ih hq.2 hys⟩
      intro x hx
      rcases (mem_insert_event e x ys).mp hx with rfl | hx
      · exact hlt
      · exact hq.1 x hx
    · rename_i hnot
      have hlt : e.time < y.time := by
        unfold before at hnot
        by_contra hc
        apply hnot
        rcases lt_or_eq_of_le (not_lt.mp hc) with h | h
        · exact Or.inl h
        · exact Or.inr ⟨h, hy⟩
      rw [List.pairwise_cons]
      refine ⟨?_, List.pairwise_cons.mpr hq⟩
      intro x hx
      rcases List.mem_cons.mp hx with rfl | hx
      · exact Or.inl hlt
      · have hyx := hq.1 x hx
        unfold before at hyx
        rcases hyx with h | ⟨h, _⟩
        · exact Or.inl (lt_trans hlt h)
        · exact Or.inl (h ▸ hlt)

theorem ordered_schedule {κ : Type} (ev : sim_events κ) (t : Int) (cb : κ)
    (h : ordered ev) : ordered (schedule ev t cb).1 := by
  obtain ⟨hord, hfresh⟩ := h
  refine ⟨pairwise_insert_event _ _ hord hfresh, ?_⟩
  intro x hx
  rcases (mem_insert_event _ x _).mp hx with rfl | hx
  · exact Nat.lt_succ_self _
  · exact Nat.lt_succ_of_lt (hfresh x hx)

theorem ordered_cancel {κ : Type} (ev : sim_events κ) (n : Nat) (h : ordered ev) :
    ordered (cancel ev n) :=
  ⟨h.1.sublist (List.filter_sublist _), fun x hx => h.2 x (List.mem_of_mem_filter hx)⟩

theorem mem_cancel {κ : Type} (ev : sim_events κ) (n : Nat) (x : sim_event κ) :
    x ∈ (cancel ev n).queue ↔ x ∈ ev.queue ∧ x.seq ≠ n := by
  simp [cancel, List.mem_filter]

/-- What the operations of a callback do to the queue: the order is kept, sequence
numbers only grow, an event of the new queue was pending or is newly scheduled, a
pending event stays unless cancelled, and each scheduled event is in the new queue
unless cancelled. -/
theorem perform_spec {κ : Type} (rs : List (request κ)) (ev : sim_events κ) (h : ordered ev) :
    ordered (perform ev rs) ∧ ev.next_seq ≤ (perform ev rs).next_seq ∧
    (∀ x ∈ (perform ev rs).queue,
      x ∈ ev.queue ∨ (ev.next_seq ≤ x.seq ∧ request.schedule x.time x.callback ∈ rs)) ∧
    (∀ x ∈ ev.queue, x ∈ (perform ev rs).queue ∨ request.cancel x.seq ∈ rs) ∧
    (∀ t cb, request.schedule t cb ∈ rs → ∃ e : sim_event κ, e.time = t ∧ e.callback = cb ∧
      ev.next_seq ≤ e.seq ∧ (e ∈ (perform ev rs).queue ∨ request.cancel e.seq ∈ rs)) := by
  induction rs generalizing ev with
  | nil => exact ⟨h, le_refl _, fun x hx => Or.inl hx, fun x hx => Or.inl hx, by simp⟩
  | cons r rs ih =>
    cases r with
    | schedule t cb =>
      obtain ⟨h1, h2, h3, h4, h5⟩ := ih (schedule ev t cb).1 (ordered_schedule ev t cb h)
      have hn : (schedule ev t cb).1.next_seq = ev.next_seq + 1 := rfl
      refine ⟨h1, ?_, ?_, ?_, ?_⟩
      · exact le_trans (Nat.le_succ _) h2
      · intro x hx
        rcases h3 x hx with hx | ⟨hx, hr⟩
        · rcases (mem_insert_event _ x _).mp hx with rfl | hx
          · exact Or.inr ⟨le_refl _, List.mem_cons_self _ _⟩
          · exact Or.inl hx
        · exact Or.inr ⟨by rw [hn] at hx; omega, List.mem_cons_of_mem _ hr⟩
      · intro x hx
        rcases h4 x ((mem_insert_event _ x _).mpr (Or.inr hx)) with hx | hx
        · exact Or.inl hx
        · exact Or.inr (List.mem_cons_of_mem _ hx)
      · intro t1 cb1 hr
        rcases List.mem_cons.mp hr with heq | hr
        · cases heq
          rcases h4 ⟨t, ev.next_seq, cb⟩ ((mem_insert_event _ _ _).mpr (Or.inl rfl)) with hx | hx
          · exact ⟨⟨t, ev.next_seq, cb⟩, rfl, rfl, le_refl _, Or.inl hx⟩
          · exact ⟨⟨t, ev.next_seq, cb⟩, rfl, rfl, le_refl _,
              Or.inr (List.mem_cons_of_mem _ hx)⟩
        · obtain ⟨e, he1, he2, he3, he4⟩ := h5 t1 cb1 hr
          refine ⟨e, he1, he2, by rw [hn] at he3; omega, ?_⟩
          rcases he4 with hx | hx
          · exact Or.inl hx
          · exact Or.inr (List.mem_cons_of_mem _ hx)
    | cancel n =>
      obtain ⟨h1, h2, h3, h4, h5⟩ := ih (cancel ev n) (ordered_cancel ev n h)
      refine ⟨h1, h2, ?_, ?_, ?_⟩
      · intro x hx
        rcases h3 x hx with hx | ⟨hx, hr⟩
        · exact Or.inl ((mem_cancel ev n x).mp hx).1
        · exact Or.inr ⟨hx, List.mem_cons_of_mem _ hr⟩
      · intro x hx
        by_cases hxn : x.seq = n
        · exact Or.inr (by rw [hxn]; exact List.mem_cons_self _ _)
        · rcases h4 x ((mem_cancel ev n x).mpr ⟨hx, hxn⟩) with hx | hx
          · exact Or.inl hx
          · exact Or.inr (List.mem_cons_of_mem _ hx)
      · intro t1 cb1 hr
        rcases List.mem_cons.mp hr with heq | hr
        · cases heq
        · obtain ⟨e, he1, he2, he3, he4⟩ := h5 t1 cb1 hr
          refine ⟨e, he1, he2, he3, ?_⟩
          rcases he4 with hx | hx
          · exact Or.inl hx
          · exact Or.inr (List.mem_cons_of_mem _ hx)

end SimEvents

namespace SimEvents

theorem fire_due_step {σ κ : Type} (body : callbacks σ κ) (T : Int) (fuel : Nat)
    (e : sim_event κ) (rest : List (sim_event κ)) (n : Nat) (s : σ) (h : e.time ≤ T) :
    fire_due body T (fuel + 1) ⟨e :: rest, n⟩ s =
      ⟨(fire_due body T fuel (perform ⟨rest, n⟩ (body e.callback s).2)
          (body e.callback s).1).events,
        (fire_due body T fuel (perform ⟨rest, n⟩ (body e.callback s).2)
          (body e.callback s).1).state,
        (e, (body e.callback s).2) ::
          (fire_due body T fuel (perform ⟨rest, n⟩ (body e.callback s).2)
            (body e.callback s).1).log,
        (fire_due body T fuel (perform ⟨rest, n⟩ (body e.callback s).2)
          (body e.callback s).1).finished⟩ := by
  simp [fire_due, h]

theorem fire_due_stop {σ κ : Type} (body : callbacks σ κ) (T : Int) (fuel : Nat)
    (e : sim_event κ) (rest : List (sim_event κ)) (n : Nat) (s : σ) (h : ¬ e.time ≤ T) :
    fire_due body T fuel ⟨e :: rest, n⟩ s = ⟨⟨e :: rest, n⟩, s, [], true⟩ := by
  cases fuel with
  | zero => simp [fire_due, not_le.mp h]
  | succ k => simp [fire_due, h]

theorem fire_due_nil {σ κ : Type} (body : callbacks σ κ) (T : Int) (fuel : Nat) (n : Nat)
    (s : σ) : fire_due body T fuel ⟨[], n⟩ s = ⟨⟨[], n⟩, s, [], true⟩ := by
  cases fuel <;> simp [fire_due]

theorem fire_due_zero {σ κ : Type} (body : callbacks σ κ) (T : Int)
    (e : sim_event κ) (rest : List (sim_event κ)) (n : Nat) (s : σ) (h : e.time ≤ T) :
    fire_due body T 0 ⟨e :: rest, n⟩ s = ⟨⟨e :: rest, n⟩, s, [], false⟩ := by
  simp [fire_due, not_lt.mpr h]

theorem head_le_of_ordered {κ : Type} (e : sim_event κ) (rest : List (sim_event κ)) (n : Nat)
    (h : ordered ⟨e :: rest, n⟩) : ∀ x ∈ e :: rest, e.time ≤ x.time := by
  intro x hx
  rcases List.mem_cons.mp hx with rfl | hx
  · exact le_refl _
  · rcases (List.pairwise_cons.mp h.1).1 x hx with hlt | ⟨heq, _⟩
    · exact le_of_lt hlt
    · exact le_of_eq heq

theorem ordered_tail {κ : Type} (e : sim_event κ) (rest : List (sim_event κ)) (n : Nat)
    (h : ordered ⟨e :: rest, n⟩) : ordered ⟨rest, n⟩ :=
  ⟨(List.pairwise_cons.mp h.1).2, fun x hx => h.2 x (List.mem_cons_of_mem _ hx)⟩

/-- What the loop of `advance_to` does, whatever the callbacks do. -/
theorem fire_due_spec {σ κ : Type} (body : callbacks σ κ) (T : Int) (fuel : Nat)
    (ev : sim_events κ) (s : σ) (h : ordered ev) :
    ordered (fire_due body T fuel ev s).events ∧
    ev.next_seq ≤ (fire_due body T fuel ev s).events.next_seq ∧
    (∀ b ∈ (fire_due body T fuel ev s).fired,
      (b ∈ ev.queue ∨ ev.next_seq ≤ b.seq) ∧ b.time ≤ T) ∧
    (fire_due body T fuel ev s).fired.Pairwise
      (fun a b => b.seq < ev.next_seq → before a b) ∧
    ((fire_due body T fuel ev s).finished = true →
      ∀ x ∈ (fire_due body T fuel ev s).events.queue, T < x.time) ∧
    (∀ x ∈ ev.queue, x ∈ (fire_due body T fuel ev s).fired ∨
      x ∈ (fire_due body T fuel ev s).events.queue ∨
      ∃ p ∈ (fire_due body T fuel ev s).log, request.cancel x.seq ∈ p.2) ∧
    (∀ p ∈ (fire_due body T fuel ev s).log, ∀ t cb, request.schedule t cb ∈ p.2 →
      ∃ e : sim_event κ, e.time = t ∧ e.callback = cb ∧
        (e ∈ (fire_due body T fuel ev s).fired ∨
         e ∈ (fire_due body T fuel ev s).events.queue ∨
         ∃ q ∈ (fire_due body T fuel ev s).log, request.cancel e.seq ∈ q.2)) ∧
    (fire_due body T fuel ev s).log = trace body (fire_due body T fuel ev s).fired s ∧
    (fire_due body T fuel ev s).state =
      (fire_due body T fuel ev s).fired.foldl (fun s1 e => (body e.callback s1).1) s := by
  induction fuel generalizing ev s with
  | zero =>
    obtain ⟨q, n⟩ := ev
    cases q with
    | nil => simp [fire_due_nil, outcome.fired, trace, h]
    | cons e rest =>
      by_cases hle : e.time ≤ T
      · simp [fire_due_zero _ _ _ _ _ _ hle, outcome.fired, trace, h]
      · rw [fire_due_stop _ _ _ _ _ _ _ hle]
        have hmin := head_le_of_ordered e rest n h
        refine ⟨h, le_refl _, by simp [outcome.fired], by simp [outcome.fired], ?_,
          fun x hx => Or.inr (Or.inl hx), by simp, by simp [outcome.fired, trace],
          by simp [outcome.fired]⟩
        intro _ x hx
        exact lt_of_lt_of_le (not_le.mp hle) (hmin x hx)
  | succ k ih =>
    obtain ⟨q, n⟩ := ev
    cases q with
    | nil => simp [fire_due_nil, outcome.fired, trace, h]
    | cons e rest =>
      by_cases hle : e.time ≤ T
      · rw [fire_due_step _ _ _ _ _ _ _ hle]
        have htail := ordered_tail e rest n h
        obtain ⟨p1, p2, p3, p4, p5⟩ := perform_spec (body e.callback s).2 ⟨rest, n⟩ htail
        obtain ⟨i1, i2, i3, i4, i5, i6, i7, i8, i9⟩ :=
          ih (perform ⟨rest, n⟩ (body e.callback s).2) (body e.callback s).1 p1
        generalize fire_due body T k (perform ⟨rest, n⟩ (body e.callback s).2)
          (body e.callback s).1 = o at i1 i2 i3 i4 i5 i6 i7 i8 i9
        have hen : e.seq < n := h.2 e (List.mem_cons_self _ _)
        have hrest : ∀ x ∈ rest, before e x := (List.pairwise_cons.mp h.1).1
        simp only [outcome.fired, List.map_cons] at *
        refine ⟨i1, le_trans p2 i2, ?_, ?_, i5, ?_, ?_, ?_, ?_⟩
        · intro b hb
          rcases List.mem_cons.mp hb with rfl | hb
          · exact ⟨Or.inl (List.mem_cons_self _ _), hle⟩
          · refine ⟨?_, (i3 b hb).2⟩
            rcases (i3 b hb).1 with hq | hq
            · rcases p3 b hq with hq | ⟨hq, _⟩
              · exact Or.inl (List.mem_cons_of_mem _ hq)
              · exact Or.inr hq
            · exact Or.inr (le_trans p2 hq)
        · rw [List.pairwise_cons]
          refine ⟨?_, i4.imp (fun hab hb => hab (lt_of_lt_of_le hb p2))⟩
          intro b hb hbn
          rcases (i3 b hb).1 with hq | hq
          · rcases p3 b hq with hq | ⟨hq, _⟩
            · exact hrest b hq
            · exact absurd hbn (not_lt.mpr hq)
          · exact absurd hbn (not_lt.mpr (le_trans p2 hq))
        · intro x hx
          rcases List.mem_cons.mp hx with rfl | hx
          · exact Or.inl (List.mem_cons_self _ _)
          · rcases p4 x hx with hx | hx
            · rcases i6 x hx with hx | hx | ⟨p, hp, hc⟩
              · exact Or.inl (List.mem_cons_of_mem _ hx)
              · exact Or.inr (Or.inl hx)
              · exact Or.inr (Or.inr ⟨p, List.mem_cons_of_mem _ hp, hc⟩)
            · exact Or.inr (Or.inr ⟨_, List.mem_cons_self _ _, hx⟩)
        · have hkeep : ∀ x : sim_event κ, (x ∈ List.map Prod.fst o.log ∨ x ∈ o.events.queue ∨
              ∃ q ∈ o.log, request.cancel x.seq ∈ q.2) →
              (x ∈ e :: List.map Prod.fst o.log ∨ x ∈ o.events.queue ∨
              ∃ q ∈ (e, (body e.callback s).2) :: o.log, request.cancel x.seq ∈ q.2) := by
            intro x hx
            rcases hx with hx | hx | ⟨q, hq, hc⟩
            · exact Or.inl (List.mem_cons_of_mem _ hx)
            · exact Or.inr (Or.inl hx)
            · exact Or.inr (Or.inr ⟨q, List.mem_cons_of_mem _ hq, hc⟩)
          intro p hp t cb hr
          rcases List.mem_cons.mp hp with rfl | hp
          · obtain ⟨x, hx1, hx2, _, hx4⟩ := p5 t cb hr
            refine ⟨x, hx1, hx2, ?_⟩
            rcases hx4 with hx | hx
            · exact hkeep x (i6 x hx)
            · exact Or.inr (Or.inr ⟨_, List.mem_cons_self _ _, hx⟩)
          · obtain ⟨x, hx1, hx2, hx3⟩ := i7 p hp t cb hr
            exact ⟨x, hx1, hx2, hkeep x hx3⟩
        · simp only [trace]; rw [← i8]
        · simp only [List.foldl_cons]; exact i9
      · rw [fire_due_stop _ _ _ _ _ _ _ hle]
        have hmin := head_le_of_ordered e rest n h
        refine ⟨h, le_refl _, by simp [outcome.fired], by simp [outcome.fired], ?_,
          fun x hx => Or.inr (Or.inl hx), by simp, by simp [outcome.fired, trace],
          by simp [outcome.fired]⟩
        intro _ x hx
        exact lt_of_lt_of_le (not_le.mp hle) (hmin x hx)

end SimEvents

namespace SimEvents

/-- When no callback schedules an event earlier than the event it is invoked for, the
events fired are in the order of the priority structure, and none is earlier than a
bound under all pending events. -/
theorem fire_due_sorted {σ κ : Type} (body : callbacks σ κ) (T : Int) (fuel : Nat)
    (ev : sim_events κ) (s : σ) (h : ordered ev)
    (hnp : ∀ p ∈ (fire_due body T fuel ev s).log, ∀ t cb,
      request.schedule t cb ∈ p.2 → p.1.time ≤ t)
    (L : Int) (hL : ∀ x ∈ ev.queue, L ≤ x.time) :
    (fire_due body T fuel ev s).fired.Pairwise before ∧
      ∀ b ∈ (fire_due body T fuel ev s).fired, L ≤ b.time := by
  induction fuel generalizing ev s L with
  | zero =>
    obtain ⟨q, n⟩ := ev
    cases q with
    | nil => simp [fire_due_nil, outcome.fired]
    | cons e rest =>
      by_cases hle : e.time ≤ T
      · simp [fire_due_zero _ _ _ _ _ _ hle, outcome.fired]
      · simp [fire_due_stop _ _ _ _ _ _ _ hle, outcome.fired]
  | succ k ih =>
    obtain ⟨q, n⟩ := ev
    cases q with
    | nil => simp [fire_due_nil, outcome.fired]
    | cons e rest =>
      by_cases hle : e.time ≤ T
      · rw [fire_due_step _ _ _ _ _ _ _ hle] at hnp ⊢
        have htail := ordered_tail e rest n h
        obtain ⟨p1, p2, p3, _, _⟩ := perform_spec (body e.callback s).2 ⟨rest, n⟩ htail
        have hen : e.seq < n := h.2 e (List.mem_cons_self _ _)
        have hrest : ∀ x ∈ rest, before e x := (List.pairwise_cons.mp h.1).1
        have hmin := head_le_of_ordered e rest n h
        have hnew : ∀ x ∈ (perform ⟨rest, n⟩ (body e.callback s).2).queue,
            e.time ≤ x.time ∧ before e x := by
          intro x hx
          rcases p3 x hx with hx | ⟨hx, hr⟩
          · exact ⟨hmin x (List.mem_cons_of_mem _ hx), hrest x hx⟩
          · have hex : e.time ≤ x.time := hnp _ (List.mem_cons_self _ _) _ _ hr
            refine ⟨hex, ?_⟩
            rcases lt_or_eq_of_le hex with hlt | heq
            · exact Or.inl hlt
            · exact Or.inr ⟨heq, lt_of_lt_of_le hen hx⟩
        obtain ⟨j1, j2⟩ := ih (perform ⟨rest, n⟩ (body e.callback s).2) (body e.callback s).1 p1
          (fun p hp => hnp p (List.mem_cons_of_mem _ hp)) e.time (fun x hx => (hnew x hx).1)
        obtain ⟨_, _, i3, _⟩ :=
          fire_due_spec body T k (perform ⟨rest, n⟩ (body e.callback s).2)
            (body e.callback s).1 p1
        generalize fire_due body T k (perform ⟨rest, n⟩ (body e.callback s).2)
          (body e.callback s).1 = o at j1 j2 i3
        simp only [outcome.fired, List.map_cons] at *
        refine ⟨List.pairwise_cons.mpr ⟨?_, j1⟩, ?_⟩
        · intro b hb
          rcases (i3 b hb).1 with hq | hq
          · exact (hnew b hq).2
          · rcases lt_or_eq_of_le (j2 b hb) with hlt | heq
            · exact Or.inl hlt
            · exact Or.inr ⟨heq, lt_of_lt_of_le hen (le_trans p2 hq)⟩
        · intro b hb
          rcases List.mem_cons.mp hb with rfl | hb
          · exact hL _ (List.mem_cons_self _ _)
          · exact le_trans (hL e (List.mem_cons_self _ _)) (j2 b hb)
      · simp [fire_due_stop _ _ _ _ _ _ _ hle, outcome.fired]

theorem fire_due_pairwise {σ κ : Type} (body : callbacks σ κ) (T : Int) (fuel : Nat)
    (ev : sim_events κ) (s : σ) (h : ordered ev)
    (hnp : ∀ p ∈ (fire_due body T fuel ev s).log, ∀ t cb,
      request.schedule t cb ∈ p.2 → p.1.time ≤ t) :
    (fire_due body T fuel ev s).fired.Pairwise before := by
  obtain ⟨q, n⟩ := ev
  cases q with
  | nil => simp [fire_due_nil, outcome.fired]
  | cons e rest =>
    exact (fire_due_sorted body T fuel ⟨e :: rest, n⟩ s h hnp e.time
      (head_le_of_ordered e rest n h)).1

/-- The number of pending events that are due. -/
theorem due_insert_event {κ : Type} (T : Int) (e : sim_event κ) (q : List (sim_event κ)) :
    ((insert_event e q).filter (fun x => decide (x.time ≤ T))).length =
      ((e :: q).filter (fun x => decide (x.time ≤ T))).length :=
  ((perm_insert_event e q).filter _).length_eq

theorem due_perform {κ : Type} (T : Int) (rs : List (request κ)) (ev : sim_events κ)
    (hrs : ∀ t cb, request.schedule t cb ∈ rs → T < t) :
    ((perform ev rs).queue.filter (fun x => decide (x.time ≤ T))).length ≤
      (ev.queue.filter (fun x => decide (x.time ≤ T))).length := by
  induction rs generalizing ev with
  | nil => exact le_refl _
  | cons r rs ih =>
    have hrs1 : ∀ t cb, request.schedule t cb ∈ rs → T < t :=
      fun t cb hr => hrs t cb (List.mem_cons_of_mem _ hr)
    cases r with
    | schedule t cb =>
      refine le_trans (ih (schedule ev t cb).1 hrs1) ?_
      have ht : ¬ t ≤ T := not_le.mpr (hrs t cb (List.mem_cons_self _ _))
      simp only [schedule]
      rw [due_insert_event, List.filter_cons_of_neg (by simpa using ht)]
    | cancel n =>
      refine le_trans (ih (cancel ev n) hrs1) ?_
      exact ((List.filter_sublist ev.queue).filter _).length_le

/-- Enough fuel brings `advance_to` to its end: when no callback schedules an event due
at `T`, as many steps as there are due events pending. -/
theorem fire_due_finishes {σ κ : Type} (body : callbacks σ κ) (T : Int) (fuel : Nat)
    (ev : sim_events κ) (s : σ)
    (hbody : ∀ k s1 t cb, request.schedule t cb ∈ (body k s1).2 → T < t)
    (hfuel : (ev.queue.filter (fun x => decide (x.time ≤ T))).length ≤ fuel) :
    (fire_due body T fuel ev s).finished = true := by
  induction fuel generalizing ev s with
  | zero =>
    obtain ⟨q, n⟩ := ev
    cases q with
    | nil => simp [fire_due_nil]
    | cons e rest =>
      by_cases hle : e.time ≤ T
      · simp [List.filter_cons, hle] at hfuel
      · simp [fire_due_stop _ _ _ _ _ _ _ hle]
  | succ k ih =>
    obtain ⟨q, n⟩ := ev
    cases q with
    | nil => simp [fire_due_nil]
    | cons e rest =>
      by_cases hle : e.time ≤ T
      · rw [fire_due_step _ _ _ _ _ _ _ hle]
        apply ih
        have h1 : ((perform ⟨rest, n⟩ (body e.callback s).2).queue.filter
            (fun x => decide (x.time ≤ T))).length ≤
            (rest.filter (fun x => decide (x.time ≤ T))).length :=
          due_perform T (body e.callback s).2 ⟨rest, n⟩ (hbody e.callback s)
        simp only [List.filter_cons, hle, decide_True, if_true, List.length_cons] at hfuel
        omega
      · simp [fire_due_stop _ _ _ _ _ _ _ hle]

theorem ordered_run {σ κ : Type} (body : callbacks σ κ) (calls : List (call κ)) (s : σ) :
    ordered (run body calls s).events := by
  unfold run
  induction calls using List.reverseRecOn with
  | nil => exact ⟨List.Pairwise.nil, by simp [sim_events.empty]⟩
  | append_singleton cs c ih =>
    rw [List.foldl_append, List.foldl_cons, List.foldl_nil]
    generalize List.foldl (step body) ⟨sim_events.empty, s, []⟩ cs = st at ih
    cases c with
    | schedule t cb => exact ordered_schedule _ t cb ih
    | cancel n => exact ordered_cancel _ n ih
    | advance_to t fuel => exact (fire_due_spec body t fuel st.events st.state ih).1

end SimEvents

namespace SimEvents

end SimEvents

/-! ## Module lifecycle registry -/

namespace SimModule

theorem register_all_lists {σ : Type} (ms : List (module σ)) (r : registry σ)
    (h : (r.init_list.map Prod.fst ++ ms.map module.name).Nodup) :
    register_all r ms = .ok ⟨r.init_list ++ ms.map (fun m => (m.name, m.init_fn)),
      r.uninstall_list ++
        ms.filterMap (fun m => m.uninstall_fn.map (fun f => (m.name, f)))⟩ := by
  induction ms generalizing r with
  | nil => simp [register_all]
  | cons m ms ih =>
    have hnot : r.init_list.any (fun e => e.1 == m.name) = false := by
      rw [Bool.eq_false_iff]
      intro hany
      obtain ⟨e, he, hname⟩ := List.any_eq_true.mp hany
      have hname1 : e.1 = m.name := by simpa using hname
      have hdis := (List.nodup_append.mp h).2.2
      exact hdis (List.mem_map.mpr ⟨e, he, rfl⟩) (by rw [hname1]; simp)
    have hnext : ((r.init_list ++ [(m.name, m.init_fn)]).map Prod.fst ++
        ms.map module.name).Nodup := by
      simpa using h
    unfold register_all register
    simp only [hnot, Bool.false_eq_true, if_false]
    rw [ih ⟨r.init_list ++ [(m.name, m.init_fn)],
      match m.uninstall_fn with
      | some f => r.uninstall_list ++ [(m.name, f)]
      | none => r.uninstall_list⟩ hnext]
    cases hm : m.uninstall_fn with
    | none => simp [List.filterMap_cons, hm]
    | some f => simp [List.filterMap_cons, hm]

theorem init_loop_cons_ok {σ : Type} (n : String) (f : callback σ)
    (rest : List (String × callback σ)) (s : σ) (h : (f s).1 = true) :
    (init_loop ((n, f) :: rest) s).invoked = n :: (init_loop rest (f s).2).invoked ∧
    (init_loop ((n, f) :: rest) s).failed = (init_loop rest (f s).2).failed ∧
    (init_loop ((n, f) :: rest) s).state = (init_loop rest (f s).2).state := by
  simp [init_loop, h]

theorem uninstall_loop_cons {σ : Type} (n : String) (f : callback σ)
    (rest : List (String × callback σ)) (s : σ) :
    (uninstall_loop ((n, f) :: rest) s).invoked = n :: (uninstall_loop rest (f s).2).invoked ∧
    (uninstall_loop ((n, f) :: rest) s).failed =
      (if (f s).1 = true then (uninstall_loop rest (f s).2).failed
        else n :: (uninstall_loop rest (f s).2).failed) ∧
    (uninstall_loop ((n, f) :: rest) s).state = (uninstall_loop rest (f s).2).state := by
  simp [uninstall_loop]

theorem init_loop_invoked {σ : Type} (l : List (String × callback σ)) (s : σ) :
    (init_loop l s).invoked <+: l.map Prod.fst ∧
      ((init_loop l s).failed = [] → (init_loop l s).invoked = l.map Prod.fst) := by
  induction l generalizing s with
  | nil => simp [init_loop]
  | cons e rest ih =>
    obtain ⟨n, f⟩ := e
    obtain ⟨h1, h2⟩ := ih (f s).2
    unfold init_loop
    by_cases hok : (f s).1 = true
    · simp only [hok, if_true, List.map_cons]
      refine ⟨?_, ?_⟩
      · simpa using h1
      · intro hf
        simpa using h2 hf
    · simp [hok]

/-- When every init callback succeeds on the state the earlier ones leave, all are
invoked, in order. -/
theorem init_loop_all {σ : Type} (ms : List (module σ)) (s : σ)
    (hok : ∀ pre m post, ms = pre ++ m :: post →
      (m.init_fn (pre.foldl (fun st x => (x.init_fn st).2) s)).1 = true) :
    (init_loop (ms.map (fun m => (m.name, m.init_fn))) s).invoked = ms.map module.name ∧
    (init_loop (ms.map (fun m => (m.name, m.init_fn))) s).failed = [] ∧
    (init_loop (ms.map (fun m => (m.name, m.init_fn))) s).state =
      ms.foldl (fun st x => (x.init_fn st).2) s := by
  induction ms generalizing s with
  | nil => simp [init_loop]
  | cons m ms ih =>
    have hm : (m.init_fn s).1 = true := hok [] m ms rfl
    obtain ⟨h1, h2, h3⟩ := ih (m.init_fn s).2
      (fun pre x post hsplit => hok (m :: pre) x post (by rw [hsplit]; rfl))
    obtain ⟨e1, e2, e3⟩ := init_loop_cons_ok m.name m.init_fn
      (ms.map (fun m => (m.name, m.init_fn))) s hm
    rw [List.map_cons, e1, e2, e3, h1, h2, h3]
    exact ⟨rfl, rfl, rfl⟩

/-- When an init callback fails after the earlier ones succeeded, it is the last one
invoked and the one reported. -/
theorem init_loop_fail {σ : Type} (pre : List (module σ)) (m : module σ)
    (post : List (module σ)) (s : σ)
    (hok : ∀ pre1 m1 post1, pre = pre1 ++ m1 :: post1 →
      (m1.init_fn (pre1.foldl (fun st x => (x.init_fn st).2) s)).1 = true)
    (hfail : (m.init_fn (pre.foldl (fun st x => (x.init_fn st).2) s)).1 = false) :
    (init_loop ((pre ++ m :: post).map (fun m => (m.name, m.init_fn))) s).invoked
      = (pre ++ [m]).map module.name ∧
    (init_loop ((pre ++ m :: post).map (fun m => (m.name, m.init_fn))) s).failed
      = [m.name] ∧
    (init_loop ((pre ++ m :: post).map (fun m => (m.name, m.init_fn))) s).state =
      (pre ++ [m]).foldl (fun st x => (x.init_fn st).2) s := by
  induction pre generalizing s with
  | nil =>
    simp only [List.foldl_nil] at hfail
    simp [init_loop, hfail]
  | cons x pre ih =>
    have hx : (x.init_fn s).1 = true := hok [] x pre rfl
    obtain ⟨h1, h2, h3⟩ := ih (x.init_fn s).2
      (fun pre1 m1 post1 hsplit => hok (x :: pre1) m1 post1 (by rw [hsplit]; rfl))
      (by simpa using hfail)
    obtain ⟨e1, e2, e3⟩ := init_loop_cons_ok x.name x.init_fn
      ((pre ++ m :: post).map (fun m => (m.name, m.init_fn))) s hx
    rw [List.cons_append, List.map_cons, e1, e2, e3, h1, h2, h3]
    exact ⟨rfl, rfl, rfl⟩

/-- Every uninstall callback is invoked, in the order of the list, whatever fails; the
callbacks reported are those that failed. -/
theorem uninstall_loop_spec {σ : Type} (l : List (String × callback σ)) (s : σ) :
    (uninstall_loop l s).invoked = l.map Prod.fst ∧
    (uninstall_loop l s).state = l.foldl (fun st p => (p.2 st).2) s ∧
    (uninstall_loop l s).failed.Sublist (l.map Prod.fst) ∧
    ((l.map Prod.fst).Nodup → ∀ pre p post, l = pre ++ p :: post →
      ((p.2 (pre.foldl (fun st x => (x.2 st).2) s)).1 = false ↔
        p.1 ∈ (uninstall_loop l s).failed)) := by
  induction l generalizing s with
  | nil => simp [uninstall_loop]
  | cons e rest ih =>
    obtain ⟨n, f⟩ := e
    obtain ⟨h1, h2, h3, h4⟩ := ih (f s).2
    obtain ⟨e1, e2, e3⟩ := uninstall_loop_cons n f rest s
    have hsub : (uninstall_loop ((n, f) :: rest) s).failed.Sublist
        (n :: rest.map Prod.fst) := by
      rw [e2]
      by_cases hok : (f s).1 = true
      · simp only [hok, if_true]
        exact h3.trans (List.sublist_cons_self _ _)
      · simp only [hok, Bool.false_eq_true, if_false]
        exact h3.cons₂ _
    refine ⟨by rw [e1, h1]; rfl, by rw [e3, h2]; rfl, hsub, ?_⟩
    intro hnd pre p post hsplit
    rw [List.map_cons, List.nodup_cons] at hnd
    cases pre with
    | nil =>
      rw [List.nil_append] at hsplit
      injection hsplit with hp _
      subst hp
      rw [List.foldl_nil, e2]
      by_cases hok : (f s).1 = true
      · simp only [hok, if_true, Bool.true_eq_false, false_iff]
        intro hmem
        exact hnd.1 (h3.subset hmem)
      · simp [hok]
    | cons x pre =>
      rw [List.cons_append] at hsplit
      injection hsplit with hx hrest
      subst hx
      have hp : p.1 ∈ rest.map Prod.fst := by
        rw [hrest, List.map_append, List.map_cons]
        exact List.mem_append_right _ (List.mem_cons_self _ _)
      have hne : p.1 ≠ n := fun heq => hnd.1 (heq ▸ hp)
      rw [List.foldl_cons, h4 hnd.2 pre p post hrest, e2]
      by_cases hok : (f s).1 = true
      · simp [hok]
      · simp [hok, hne]

theorem uninstall_names {σ : Type} (ms : List (module σ)) :
    (ms.filterMap (fun m => m.uninstall_fn.map (fun f => (m.name, f)))).map Prod.fst =
      (ms.filter (fun m => m.uninstall_fn.isSome)).map module.name := by
  induction ms with
  | nil => rfl
  | cons m ms ih =>
    cases hm : m.uninstall_fn with
    | none => simp [List.filterMap_cons, List.filter_cons, hm, ih]
    | some f => simp [List.filterMap_cons, List.filter_cons, hm, ih]

/-- C6: registering modules with distinct names, in order, succeeds and keeps their
handlers in registration order.  `run_init_all` then invokes the init callbacks in
registration order, each on the host state the earlier ones leave: all of them when
all succeed, and up to the first that fails, which is reported, otherwise.
`run_uninstall_all` invokes the uninstall callbacks of the modules that have one in
the reverse of registration order, each on the host state the earlier ones leave,
whatever fails, and reports those that fail.  Modules A, B, C with logging callbacks
run init in order A, B, C and uninstall in order C, B, A. -/
theorem init_in_order_uninstall_in_reverse {σ : Type} (ms : List (module σ)) (s : σ)
    (h : (ms.map module.name).Nodup) :
    ∃ r, register_all registry.empty ms = .ok r ∧
      r.init_list = ms.map (fun m => (m.name, m.init_fn)) ∧
      r.uninstall_list = ms.filterMap (fun m => m.uninstall_fn.map (fun f => (m.name, f))) ∧
      (run_init_all r s).invoked <+: ms.map module.name ∧
      ((run_init_all r s).failed = [] → (run_init_all r s).invoked = ms.map module.name) ∧
      ((∀ pre m post, ms = pre ++ m :: post →
          (m.init_fn (pre.foldl (fun st x => (x.init_fn st).2) s)).1 = true) →
        (run_init_all r s).invoked = ms.map module.name ∧
        (run_init_all r s).failed = [] ∧
        (run_init_all r s).state = ms.foldl (fun st x => (x.init_fn st).2) s) ∧
      (∀ pre m post, ms = pre ++ m :: post →
        (∀ pre1 m1 post1, pre = pre1 ++ m1 :: post1 →
          (m1.init_fn (pre1.foldl (fun st x => (x.init_fn st).2) s)).1 = true) →
        (m.init_fn (pre.foldl (fun st x => (x.init_fn st).2) s)).1 = false →
        (run_init_all r s).invoked = (pre ++ [m]).map module.name ∧
        (run_init_all r s).failed = [m.name] ∧
        (run_init_all r s).state = (pre ++ [m]).foldl (fun st x => (x.init_fn st).2) s) ∧
      (run_uninstall_all r s).invoked =
        ((ms.filter (fun m => m.uninstall_fn.isSome)).map module.name).reverse ∧
      ((∀ m ∈ ms, m.uninstall_fn.isSome = true) →
        (run_uninstall_all r s).invoked = (ms.map module.name).reverse) ∧
      (run_uninstall_all r s).state =
        r.uninstall_list.reverse.foldl (fun st p => (p.2 st).2) s ∧
      (run_uninstall_all r s).failed.Sublist (run_uninstall_all r s).invoked ∧
      (∀ pre p post, r.uninstall_list.reverse = pre ++ p :: post →
        ((p.2 (pre.foldl (fun st x => (x.2 st).2) s)).1 = false ↔
          p.1 ∈ (run_uninstall_all r s).failed)) ∧
      lifecycle scenario_modules [] =
        .ok (["A", "B", "C"], ["C", "B", "A"],
          ["init A", "init B", "init C", "uninstall C", "uninstall B", "uninstall A"]) := by
  have hreg := register_all_lists ms registry.empty (by simpa [registry.empty] using h)
  simp only [registry.empty, List.nil_append] at hreg
  refine ⟨_, hreg, rfl, rfl, ?_, ?_, ?_, ?_, ?_, ?_, ?_, ?_, ?_, rfl⟩
  · have h1 := (init_loop_invoked (ms.map (fun m => (m.name, m.init_fn))) s).1
    simpa [run_init_all, Function.comp_def] using h1
  · have h2 := (init_loop_invoked (ms.map (fun m => (m.name, m.init_fn))) s).2
    simpa [run_init_all, Function.comp_def] using h2
  · intro hok
    exact init_loop_all ms s hok
  · intro pre m post hsplit hok hfail
    subst hsplit
    exact init_loop_fail pre m post s hok hfail
  · rw [run_uninstall_all, (uninstall_loop_spec _ s).1, List.map_reverse, uninstall_names]
  · intro hall
    rw [run_uninstall_all, (uninstall_loop_spec _ s).1, List.map_reverse, uninstall_names,
      List.filter_eq_self.mpr hall]
  · exact (uninstall_loop_spec _ s).2.1
  · rw [run_uninstall_all, (uninstall_loop_spec _ s).1]
    exact (uninstall_loop_spec _ s).2.2.1
  · have hnd : ((ms.filterMap (fun m => m.uninstall_fn.map
        (fun f => (m.name, f)))).reverse.map Prod.fst).Nodup := by
      rw [List.map_reverse, List.nodup_reverse, uninstall_names]
      exact h.sublist ((List.filter_sublist ms).map _)
    exact (uninstall_loop_spec _ s).2.2.2 hnd

/-- Modules A, B, C with logging callbacks: the names are distinct, so the registry
runs their callbacks as the theorem says. -/
theorem init_in_order_uninstall_in_reverse_witness :
    (scenario_modules.map module.name).Nodup ∧
    (∃ r, register_all registry.empty scenario_modules = .ok r ∧
        r.init_list = scenario_modules.map (fun m => (m.name, m.init_fn)) ∧
        r.uninstall_list = scenario_modules.filterMap (fun m => m.uninstall_fn.map (fun f => (m.name, f))) ∧
        (run_init_all r []).invoked <+: scenario_modules.map module.name ∧
        ((run_init_all r []).failed = [] → (run_init_all r []).invoked = scenario_modules.map module.name) ∧
        ((∀ pre m post, scenario_modules = pre ++ m :: post →
            (m.init_fn (pre.foldl (fun st x => (x.init_fn st).2) [])).1 = true) →
          (run_init_all r []).invoked = scenario_modules.map module.name ∧
          (run_init_all r []).failed = [] ∧
          (run_init_all r []).state = scenario_modules.foldl (fun st x => (x.init_fn st).2) []) ∧
        (∀ pre m post, scenario_modules = pre ++ m :: post →
          (∀ pre1 m1 post1, pre = pre1 ++ m1 :: post1 →
            (m1.init_fn (pre1.foldl (fun st x => (x.init_fn st).2) [])).1 = true) →
          (m.init_fn (pre.foldl (fun st x => (x.init_fn st).2) [])).1 = false →
          (run_init_all r []).invoked = (pre ++ [m]).map module.name ∧
          (run_init_all r []).failed = [m.name] ∧
          (run_init_all r []).state = (pre ++ [m]).foldl (fun st x => (x.init_fn st).2) []) ∧
        (run_uninstall_all r []).invoked =
          ((scenario_modules.filter (fun m => m.uninstall_fn.isSome)).map module.name).reverse ∧
        ((∀ m ∈ scenario_modules, m.uninstall_fn.isSome = true) →
          (run_uninstall_all r []).invoked = (scenario_modules.map module.name).reverse) ∧
        (run_uninstall_all r []).state =
          r.uninstall_list.reverse.foldl (fun st p => (p.2 st).2) [] ∧
        (run_uninstall_all r []).failed.Sublist (run_uninstall_all r []).invoked ∧
        (∀ pre p post, r.uninstall_list.reverse = pre ++ p :: post →
          ((p.2 (pre.foldl (fun st x => (x.2 st).2) [])).1 = false ↔
            p.1 ∈ (run_uninstall_all r []).failed)) ∧
        lifecycle scenario_modules [] =
          .ok (["A", "B", "C"], ["C", "B", "A"],
            ["init A", "init B", "init C", "uninstall C", "uninstall B", "uninstall A"])) :=
  ⟨by decide, init_in_order_uninstall_in_reverse scenario_modules [] (by decide)⟩

end SimModule

/-! ## Core memory bus -/

namespace SimCore

/-- Two regions that cover an access at the same address intersect. -/
theorem intersects_of_covers (a b : region) (address n m : Nat)
    (ha : covers a address n = true) (hb : covers b address m = true) :
    intersects a b = true := by
  simp only [covers, decide_eq_true_eq] at ha hb
  simp only [intersects, ranges_intersect, decide_eq_true_eq, lt_min_iff, max_lt_iff]
  omega

theorem map_step_nonoverlapping (c : sim_core) (q : map_request)
    (h : c.regions.Pairwise (fun a b => intersects a b = false)) :
    (map_step c q).regions.Pairwise (fun a b => intersects a b = false) := by
  unfold map_step map
  split
  · rename_i c1 heq
    split at heq
    · cases heq
    · rename_i hany
      cases heq
      rw [List.pairwise_append]
      refine ⟨h, List.pairwise_singleton _ _, ?_⟩
      intro a ha b hb
      rw [List.mem_singleton] at hb
      subst hb
      by_contra hc
      apply hany
      exact List.any_eq_true.mpr ⟨a, ha, by simpa using hc⟩
  · exact h

/-- The regions registered by any sequence of `map` requests do not overlap. -/
theorem map_all_nonoverlapping (qs : List map_request) :
    (map_all qs).regions.Pairwise (fun a b => intersects a b = false) := by
  unfold map_all
  induction qs using List.reverseRecOn with
  | nil => simp [sim_core.empty]
  | append_singleton qs q ih =>
    rw [List.foldl_append, List.foldl_cons, List.foldl_nil]
    exact map_step_nonoverlapping _ q ih

/-- Among regions that do not overlap, an access resolves to the region that covers it. -/
theorem find_covering (l : List region) (r : region) (address n : Nat)
    (hl : l.Pairwise (fun a b => intersects a b = false)) (hr : r ∈ l)
    (hc : covers r address n = true) :
    l.find? (fun x => covers x address n) = some r := by
  induction l with
  | nil => cases hr
  | cons x xs ih =>
    rw [List.pairwise_cons] at hl
    by_cases hx : covers x address n = true
    · simp only [List.find?_cons, hx]
      rcases List.mem_cons.mp hr with rfl | hr
      · rfl
      · have := hl.1 r hr
        rw [intersects_of_covers x r address n n hx hc] at this
        cases this
    · rw [Bool.not_eq_true] at hx
      simp only [List.find?_cons, hx]
      rcases List.mem_cons.mp hr with rfl | hr
      · rw [hc] at hx; cases hx
      · exact ih hl.2 hr

/-- After the store the access resolves to the region with the bytes stored. -/
theorem find_store_in (l : List region) (r : region) (address : Nat) (bytes : List byte)
    (h : l.find? (fun x => covers x address bytes.length) = some r) :
    (store_in address bytes l).find? (fun x => covers x address bytes.length)
      = some (store r address bytes) := by
  induction l with
  | nil => cases h
  | cons x xs ih =>
    unfold store_in
    by_cases hx : covers x address bytes.length = true
    · simp only [List.find?_cons, hx, Option.some.injEq] at h
      subst h
      rw [if_pos hx]
      have hx1 : covers (store x address bytes) address bytes.length = true := hx
      simp only [List.find?_cons, hx1]
    · rw [Bool.not_eq_true] at hx
      simp only [List.find?_cons, hx] at h
      simp only [hx, Bool.false_eq_true, if_false, List.find?_cons]
      exact ih h

/-- Loading what was stored gives the bytes stored. -/
theorem load_store (r : region) (address : Nat) (bytes : List byte) :
    load (store r address bytes) address bytes.length = bytes := by
  apply List.ext_getElem
  · simp [load]
  · intro k h1 h2
    have hcond : address - r.base ≤ address - r.base + k ∧
        address - r.base + k < address - r.base + bytes.length := by omega
    simp only [load, store, List.getElem_map, List.getElem_range, hcond, and_self, if_true]
    rw [Nat.add_sub_cancel_left, List.getD_eq_getElem _ _ h2]

end SimCore

namespace SimCore

/-- C7: on the bus built by any sequence of `map` requests, a write at an address
inside a read-write region that covers the range written succeeds, and the read of
the same length at the same address that follows it returns exactly the bytes
written.  Writing the 4 bytes of 0xDEADBEEF at 0x1000 in the read-write region
`[0x1000, 0x1000 + 256)` and reading 4 bytes at 0x1000 returns them. -/
theorem read_after_write_returns_bytes (qs : List map_request) (r : region) (address : Nat)
    (bytes : List byte) (hr : r ∈ (map_all qs).regions) (hread : r.perm.read = true)
    (hwrite : r.perm.write = true) (hc : covers r address bytes.length = true) :
    (∃ c, write (map_all qs) address bytes = .ok c ∧
      read c address bytes.length = .ok bytes) ∧
    (write (map_all [scenario_request]) 0x1000 deadbeef >>= fun c => read c 0x1000 4)
      = .ok deadbeef := by
  refine ⟨?_, rfl⟩
  have hfind := find_covering _ r address bytes.length (map_all_nonoverlapping qs) hr hc
  refine ⟨⟨store_in address bytes (map_all qs).regions⟩, ?_, ?_⟩
  · simp only [write, hfind, hwrite, if_true]
  · simp only [read, find_store_in _ r address bytes hfind]
    have hperm : (store r address bytes).perm.read = true := hread
    simp only [hperm, if_true, load_store]

/-- The round trip in the scenario: the region `[0x1000, 0x1000 + 256)` and the bytes of
0xDEADBEEF at 0x1000. -/
theorem read_after_write_returns_bytes_witness :
    (⟨0x1000, 256, ⟨true, true⟩, fun _ => 0⟩ : region) ∈ (map_all [scenario_request]).regions ∧
    (⟨0x1000, 256, ⟨true, true⟩, fun _ => 0⟩ : region).perm.read = true ∧
    (⟨0x1000, 256, ⟨true, true⟩, fun _ => 0⟩ : region).perm.write = true ∧
    covers ⟨0x1000, 256, ⟨true, true⟩, fun _ => 0⟩ 0x1000 deadbeef.length = true ∧
    ((∃ c, write (map_all [scenario_request]) 0x1000 deadbeef = .ok c ∧
      read c 0x1000 deadbeef.length = .ok deadbeef) ∧
    (write (map_all [scenario_request]) 0x1000 deadbeef >>= fun c => read c 0x1000 4)
      = .ok deadbeef) :=
  ⟨List.mem_singleton.mpr rfl, rfl, rfl, by decide,
    read_after_write_returns_bytes [scenario_request] ⟨0x1000, 256, ⟨true, true⟩, fun _ => 0⟩
      0x1000 deadbeef (List.mem_singleton.mpr rfl) rfl rfl (by decide)⟩

end SimCore

/-! ## Per-CPU debug flags -/

namespace SimBase

/-- C8: with the default `MAX_DEBUG_VALUES`, the array `debug_flags` of every
`sim_cpu_base` has exactly 4 entries; `DEBUG_INSN_IDX` and every index below
`DEBUG_NEXT_IDX` are indices of it, and so is at least one index at or above
`DEBUG_NEXT_IDX`: `0 ≤ DEBUG_INSN_IDX < DEBUG_NEXT_IDX < MAX_DEBUG_VALUES`. -/
theorem debug_flags_bounded (cpu : sim_cpu_base) :
    (CPU_DEBUG_FLAGS cpu).length = 4 ∧
    (∃ v, (CPU_DEBUG_FLAGS cpu)[DEBUG_INSN_IDX]? = some v) ∧
    (∀ i, i < DEBUG_NEXT_IDX → ∃ v, (CPU_DEBUG_FLAGS cpu)[i]? = some v) ∧
    (∃ i, DEBUG_NEXT_IDX ≤ i ∧ ∃ v, (CPU_DEBUG_FLAGS cpu)[i]? = some v) ∧
    (0 ≤ DEBUG_INSN_IDX ∧ DEBUG_INSN_IDX < DEBUG_NEXT_IDX ∧
      DEBUG_NEXT_IDX < MAX_DEBUG_VALUES) := by
  have hlen : (CPU_DEBUG_FLAGS cpu).length = 4 := cpu.debug_flags_size
  have hidx : ∀ i, i < 4 → ∃ v, (CPU_DEBUG_FLAGS cpu)[i]? = some v := by
    intro i hi
    exact ⟨(CPU_DEBUG_FLAGS cpu)[i], List.getElem?_eq_getElem (by omega)⟩
  refine ⟨hlen, hidx _ (by decide), ?_, ⟨DEBUG_NEXT_IDX, le_refl _, hidx _ (by decide)⟩,
    by decide⟩
  intro i hi
  exact hidx i (by unfold DEBUG_NEXT_IDX at hi; omega)

end SimBase
